import Mathlib

/-!
Verification of the rekordcrate PDB row-extraction surface.

The crate root (`src/lib.rs`) drives the decode: it reads the header, walks
every table's page chain, and collects the present rows of every data page
into an owned `PdbRows` collection with a borrowed double-ended iterator.
The `pdb` module itself (header, page, row-group and row decoding) is not
part of the sources at hand, so its operations are modelled from the spec;
the crate-root logic (`iter_pdb_rows`, `PdbRows`, `PdbRowIter`) is embedded
from `src/lib.rs` directly.

Machine integers are modelled as `Nat`; fallible decoding returns
`Except PdbError`.
-/

namespace Rekordcrate

/-- Modelled from the spec: the error taxonomy of §7 — Io, MalformedHeader,
MalformedPage and MalformedRow all abort the read; UnsupportedTable is not an
error (unknown tags degrade to a fallback row variant instead). -/
inductive PdbError
  | io
  | malformedHeader
  | malformedPage
  | malformedRow
deriving DecidableEq, Repr

/-- Modelled from the spec: the top-level database-type discriminant selecting
format-variant decoding rules; the spec treats those rules as external
collaborators, so the discriminant is carried but not interpreted here. -/
inductive DatabaseType
  | pdb
  | pdbExt
deriving DecidableEq, Repr

/-- Modelled from the spec: table-type tags — a closed set of known entity
kinds plus unrecognized numeric tags kept as a fallback. -/
inductive TableType
  | tracks
  | artists
  | albums
  | genres
  | playlists
  | unknown (tag : Nat)
deriving DecidableEq, Repr

/-- Modelled from the spec: a decoded row — one variant per known table type,
each owning its decoded bytes, plus the table-tagged raw-byte fallback for
unrecognized table types. -/
inductive Row
  | tracks (bytes : List Nat)
  | artists (bytes : List Nat)
  | albums (bytes : List Nat)
  | genres (bytes : List Nat)
  | playlists (bytes : List Nat)
  | unknownRow (tag : Nat) (bytes : List Nat)
deriving DecidableEq, Repr

/-- Modelled from the spec: decoding one present slot's bytes as a Row, with
the variant selected by the enclosing page's table-type tag.  A known variant
has a structural constraint on its bytes (a nonempty fixed-width prefix);
violating it is a MalformedRow error.  An unknown tag always succeeds and
retains the raw bytes as a table-tagged fallback row. -/
def decodeRow (tt : TableType) (bytes : List Nat) : Except PdbError Row :=
  match tt with
  | .tracks => if bytes.isEmpty then .error .malformedRow else .ok (.tracks bytes)
  | .artists => if bytes.isEmpty then .error .malformedRow else .ok (.artists bytes)
  | .albums => if bytes.isEmpty then .error .malformedRow else .ok (.albums bytes)
  | .genres => if bytes.isEmpty then .error .malformedRow else .ok (.genres bytes)
  | .playlists => if bytes.isEmpty then .error .malformedRow else .ok (.playlists bytes)
  | .unknown tag => .ok (.unknownRow tag bytes)

/-- Modelled from the spec: the raw (undecoded) form of one row group — the
fixed-size row-slot payloads and the trailing presence bitmask bytes. -/
structure RawRowGroup where
  slots : List (List Nat)
  mask : List Nat
deriving DecidableEq, Repr

/-- Modelled from the spec: bit-to-slot mapping — bit index `i`, 0-based and
least-significant-bit first within each mask byte, governs slot `i`. -/
def bitSet (mask : List Nat) (i : Nat) : Bool :=
  Nat.testBit (mask.getD (i / 8) 0) (i % 8)

/-- Modelled from the spec: splitting the byte segment allocated to one row
group into `slotCount` slots of `slotSize` bytes followed by a trailing
presence bitmask of `ceil(slotCount / 8)` bytes. -/
def parseRowGroup (slotCount slotSize : Nat) (bytes : List Nat) :
    Option RawRowGroup :=
  if bytes.length = slotCount * slotSize + (slotCount + 7) / 8 then
    some
      { slots :=
          (List.range slotCount).map
            (fun i => ((bytes.drop (i * slotSize)).take slotSize))
        mask := bytes.drop (slotCount * slotSize) }
  else
    none

/-- Modelled from the spec: a decoded row group — the presence mask together
with one entry per slot: `some row` for a slot whose presence bit is set (its
payload decoded), `none` for a stale slot that was skipped undecoded. -/
structure RowGroup where
  mask : List Nat
  entries : List (Option Row)
deriving DecidableEq, Repr

/-- Error-propagating map over a list: the `Except` analogue of collecting a
sequence of fallible decodes, stopping at the first error. -/
def mapE (f : α → Except PdbError β) : List α → Except PdbError (List β)
  | [] => .ok []
  | a :: as =>
    match f a with
    | .error e => .error e
    | .ok b =>
      match mapE f as with
      | .error e => .error e
      | .ok bs => .ok (b :: bs)

/-- Modelled from the spec: decoding one row group — each slot whose presence
bit is set has its payload decoded as a row of the enclosing table type (a
failure is MalformedRow), and each slot whose bit is clear is skipped without
any attempt to decode its payload. -/
def readRowGroup (tt : TableType) (raw : RawRowGroup) :
    Except PdbError RowGroup :=
  match
    mapE
      (fun i =>
        if bitSet raw.mask i then
          match decodeRow tt (raw.slots.getD i []) with
          | .error e => .error e
          | .ok r => .ok (some r)
        else .ok none)
      (List.range raw.slots.length)
  with
  | .error e => .error e
  | .ok es => .ok { mask := raw.mask, entries := es }

/-- Extracts the present rows of a decoded row group, in ascending slot
order (embeds `row_group.into_rows()` as consumed by `src/lib.rs`). -/
def RowGroup.intoRows (rg : RowGroup) : List Row :=
  rg.entries.filterMap id

/-- Modelled from the spec: the raw content of a page — a Data kind carrying
row groups, or any other page-kind discriminant kept structurally. -/
inductive RawPageContent
  | data (rowGroups : List RawRowGroup)
  | other (kind : Nat)
deriving DecidableEq, Repr

/-- Modelled from the spec: a raw page — its header fields (own page index,
owning table-type tag, next-page pointer) and its raw content. -/
structure RawPage where
  pageIndex : Nat
  tableType : TableType
  nextPage : Nat
  content : RawPageContent
deriving DecidableEq, Repr

/-- Decoded page content: row groups for a Data page, an opaque structural
variant for every other page kind. -/
inductive PageContent
  | data (rowGroups : List RowGroup)
  | other (kind : Nat)
deriving DecidableEq, Repr

/-- A decoded page, as yielded by the page reader. -/
structure Page where
  pageIndex : Nat
  tableType : TableType
  nextPage : Nat
  content : PageContent
deriving DecidableEq, Repr

/-- Modelled from the spec: decoding one page's content — a Data kind decodes
its row groups (selecting row variants by the page's table-type tag); any
other kind is retained as an opaque structural variant and never expanded
into rows. -/
def decodePage (raw : RawPage) : Except PdbError Page :=
  match raw.content with
  | .data rgs =>
    match mapE (readRowGroup raw.tableType) rgs with
    | .error e => .error e
    | .ok ds =>
      .ok
        { pageIndex := raw.pageIndex, tableType := raw.tableType,
          nextPage := raw.nextPage, content := .data ds }
  | .other k =>
    .ok
      { pageIndex := raw.pageIndex, tableType := raw.tableType,
        nextPage := raw.nextPage, content := .other k }

/-- Modelled from the spec: the byte source viewed through page decoding — a
map from a page index to the raw page stored there, or to the Io or
MalformedPage error that reading it produces. -/
abbrev PageSource := Nat → Except PdbError RawPage

/-- Reading and decoding the single page at index `i`. -/
def decodeAt (file : PageSource) (i : Nat) : Except PdbError Page :=
  match file i with
  | .error e => .error e
  | .ok raw => decodePage raw

/-- Modelled from the spec: the page-chain walk of `read_pages` — decode the
page at the cursor; if its decoded page index equals the declared last page,
terminate after yielding it, otherwise continue at its next-page pointer.
The fuel parameter bounds the walk (the source trusts the file to reach the
last page; fuel only makes the model total). -/
def readPagesAux (file : PageSource) (last : Nat) :
    Nat → Nat → Except PdbError (List Page)
  | _, 0 => .error .malformedPage
  | cur, fuel + 1 =>
    match file cur with
    | .error e => .error e
    | .ok raw =>
      match decodePage raw with
      | .error e => .error e
      | .ok p =>
        if raw.pageIndex = last then .ok [p]
        else
          match readPagesAux file last raw.nextPage fuel with
          | .error e => .error e
          | .ok ps => .ok (p :: ps)

/-- Modelled from the spec: `read_pages(source, endianness, (first_page,
last_page, database_type))` — the finite sequence of pages of one table's
chain, from the first page to the declared last page. -/
def readPages (file : PageSource) (_typ : DatabaseType)
    (firstPage lastPage fuel : Nat) : Except PdbError (List Page) :=
  readPagesAux file lastPage firstPage fuel

/-- Modelled from the spec: one table directory entry — table-type tag,
first-page pointer, last-page pointer. -/
structure TableEntry where
  tag : TableType
  firstPage : Nat
  lastPage : Nat
deriving DecidableEq, Repr

/-- Modelled from the spec: the decoded file prologue — page size and the
ordered table directory. -/
structure Header where
  pageSize : Nat
  tables : List TableEntry
deriving DecidableEq, Repr

/-- Modelled from the spec: an opened PDB file as seen by the crate root —
the result of reading the header (Io or MalformedHeader on failure) and the
page source for the chain walks. -/
structure PdbFile where
  header : Except PdbError Header
  page : PageSource

/-- Owned collection of rows extracted from a PDB file (from `src/lib.rs`,
struct `PdbRows`). -/
structure PdbRows where
  rows : List Row
deriving DecidableEq, Repr

/-- The innermost loop of `iter_pdb_rows` (from `src/lib.rs`): for each row
group of a data page, `rows.extend(row_group.into_rows())`. -/
def groupsLoop : List RowGroup → List Row → List Row
  | [], rows => rows
  | rg :: rest, rows => groupsLoop rest (rows ++ rg.intoRows)

/-- The page loop of `iter_pdb_rows` (from `src/lib.rs`): only a page whose
content matches `PageContent::Data` contributes its row groups. -/
def pagesLoop : List Page → List Row → List Row
  | [], rows => rows
  | page :: rest, rows =>
    pagesLoop rest
      (match page.content with
      | .data rgs => groupsLoop rgs rows
      | .other _ => rows)

/-- The table loop of `iter_pdb_rows` (from `src/lib.rs`): for each table
directory entry in order, walk its page chain (propagating the error of
`read_pages` via `?`) and extend the accumulated rows. -/
def tablesLoop (src : PageSource) (typ : DatabaseType) (fuel : Nat) :
    List TableEntry → List Row → Except PdbError (List Row)
  | [], rows => .ok rows
  | table :: rest, rows =>
    match readPages src typ table.firstPage table.lastPage fuel with
    | .error e => .error e
    | .ok pages => tablesLoop src typ fuel rest (pagesLoop pages rows)

/-- Embeds `iter_pdb_rows` from `src/lib.rs`: open the file (`?` on Io),
read the header (`?`), then for every table directory entry walk the chain
and accumulate the present rows of every data page, returning the owned
`PdbRows` collection or the first error. -/
def iter_pdb_rows (f : Except PdbError PdbFile) (typ : DatabaseType)
    (fuel : Nat) : Except PdbError PdbRows :=
  match f with
  | .error e => .error e
  | .ok file =>
    match file.header with
    | .error e => .error e
    | .ok header =>
      match tablesLoop file.page typ fuel header.tables [] with
      | .error e => .error e
      | .ok rows => .ok { rows := rows }

/-- The rows contributed by one decoded page, written as the spec describes
the extraction: the concatenation, in row-group order, of each group's
present rows — and nothing for a page of any non-Data kind. -/
def pageRows (p : Page) : List Row :=
  match p.content with
  | .data rgs => (rgs.map RowGroup.intoRows).flatten
  | .other _ => []

/-- The rows of one table, written as the spec describes them: the pages of
the chain in pointer order, each contributing its rows in row-group/slot
order. -/
def tableRows (src : PageSource) (typ : DatabaseType) (fuel : Nat)
    (t : TableEntry) : Except PdbError (List Row) :=
  match readPages src typ t.firstPage t.lastPage fuel with
  | .error e => .error e
  | .ok ps => .ok ((ps.map pageRows).flatten)

/-- The collection as the spec states it: rows of the tables in directory
order, concatenated. -/
def rowCollectionSpec (f : Except PdbError PdbFile) (typ : DatabaseType)
    (fuel : Nat) : Except PdbError PdbRows :=
  match f with
  | .error e => .error e
  | .ok file =>
    match file.header with
    | .error e => .error e
    | .ok header =>
      match mapE (tableRows file.page typ fuel) header.tables with
      | .error e => .error e
      | .ok ls => .ok { rows := ls.flatten }

/-- Mapping the success value of an `Except`, leaving errors untouched. -/
def exceptMap (f : α → β) : Except PdbError α → Except PdbError β
  | .error e => .error e
  | .ok a => .ok (f a)

/-- The slot indices below `n` whose presence bit is set, in ascending
order. -/
def presentIndices (mask : List Nat) (n : Nat) : List Nat :=
  (List.range n).filter (fun i => bitSet mask i)

/-- Number of set presence bits governing the first `n` slots. -/
def maskCount (mask : List Nat) (n : Nat) : Nat :=
  (presentIndices mask n).length

/-- Set presence bits of one decoded page: summed over its row groups for a
data page, zero for any other page kind. -/
def pageBitCount (p : Page) : Nat :=
  match p.content with
  | .data rgs => (rgs.map (fun rg => maskCount rg.mask rg.entries.length)).sum
  | .other _ => 0

/-- A witnessed page chain: the list of page indices the walk visits, each
index holding a readable, decodable page, every page but the final one
pointing at the next index and only the final one carrying the declared
last-page index. -/
def ChainOk (file : PageSource) (last : Nat) : List Nat → Prop
  | [] => False
  | [i] =>
    ∃ raw p, file i = .ok raw ∧ decodePage raw = .ok p ∧ raw.pageIndex = last
  | i :: j :: rest =>
    ∃ raw p, file i = .ok raw ∧ decodePage raw = .ok p ∧
      raw.pageIndex ≠ last ∧ raw.nextPage = j ∧ ChainOk file last (j :: rest)

/-- A raw page chain for one table, with no demand that its row payloads
decode: each index holds a readable raw page of the given table type, linked
as in `ChainOk`. -/
def ChainRawOk (file : PageSource) (tt : TableType) (last : Nat) :
    List Nat → Prop
  | [] => False
  | [i] =>
    ∃ raw, file i = .ok raw ∧ raw.tableType = tt ∧ raw.pageIndex = last
  | i :: j :: rest =>
    ∃ raw, file i = .ok raw ∧ raw.tableType = tt ∧ raw.pageIndex ≠ last ∧
      raw.nextPage = j ∧ ChainRawOk file tt last (j :: rest)

/-- Returns true if no rows were extracted (from `src/lib.rs`,
`PdbRows::is_empty`). -/
def PdbRows.is_empty (rc : PdbRows) : Bool :=
  rc.rows.isEmpty

/-- Returns the number of extracted rows (from `src/lib.rs`,
`PdbRows::len`). -/
def PdbRows.len (rc : PdbRows) : Nat :=
  rc.rows.length

/-- A default-constructed collection (from `src/lib.rs`, the
`derive(Default)` on `PdbRows`: an empty row vector). -/
instance : Inhabited PdbRows :=
  ⟨{ rows := [] }⟩

/-- Borrowed iterator over the extracted rows (from `src/lib.rs`,
`PdbRowIter` wrapping `slice::Iter`): the remaining elements, consumable
from either end. -/
structure PdbRowIter where
  elems : List Row
deriving DecidableEq, Repr

/-- Iterates over the extracted rows by reference (from `src/lib.rs`,
`PdbRows::iter`). -/
def PdbRows.iter (rc : PdbRows) : PdbRowIter :=
  { elems := rc.rows }

/-- Consumes the container and returns the owned rows (from `src/lib.rs`,
`PdbRows::into_rows`). -/
def PdbRows.into_rows (rc : PdbRows) : List Row :=
  rc.rows

/-- One step of forward iteration (from `src/lib.rs`, `Iterator::next` on
`PdbRowIter`, i.e. `slice::Iter::next`). -/
def PdbRowIter.next : PdbRowIter → Option (Row × PdbRowIter)
  | { elems := [] } => none
  | { elems := x :: xs } => some (x, { elems := xs })

/-- One step of backward iteration (from `src/lib.rs`,
`DoubleEndedIterator::next_back` on `PdbRowIter`). -/
def PdbRowIter.next_back (it : PdbRowIter) : Option (Row × PdbRowIter) :=
  match it.elems.getLast? with
  | none => none
  | some x => some (x, { elems := it.elems.dropLast })

/-- The exact remaining count (from `src/lib.rs`, `ExactSizeIterator::len`
on `PdbRowIter`). -/
def PdbRowIter.len (it : PdbRowIter) : Nat :=
  it.elems.length

/-- Fully consuming the iterator from the front, collecting the yielded
rows in order. -/
def PdbRowIter.drain : PdbRowIter → List Row
  | { elems := [] } => []
  | { elems := x :: xs } => x :: PdbRowIter.drain { elems := xs }

/-- Consuming `k` items from the front, returning the iterator state. -/
def PdbRowIter.consumeFront : Nat → PdbRowIter → PdbRowIter
  | 0, it => it
  | k + 1, it =>
    match it.next with
    | none => it
    | some (_, it2) => PdbRowIter.consumeFront k it2

/-- Fully consuming the iterator alternately from the front (`true`) and
the back (`false`), collecting the yielded rows in the order obtained. -/
def PdbRowIter.altDrain : PdbRowIter → Bool → List Row
  | { elems := [] }, _ => []
  | { elems := x :: xs }, true => x :: PdbRowIter.altDrain { elems := xs } false
  | { elems := x :: xs }, false =>
    (x :: xs).getLast (List.cons_ne_nil x xs) ::
      PdbRowIter.altDrain { elems := (x :: xs).dropLast } true
termination_by it _ => it.elems.length
decreasing_by
  · simp
  · simp

/-- Concrete raw data page at index 0: one row group with two slots, only
slot 0 present, chained to page 2. -/
def wRaw0 : RawPage :=
  { pageIndex := 0, tableType := .tracks, nextPage := 2,
    content := .data [{ slots := [[7], [8]], mask := [1] }] }

/-- Concrete non-data page at index 2, chained to page 5. -/
def wRaw2 : RawPage :=
  { pageIndex := 2, tableType := .tracks, nextPage := 5,
    content := .other 3 }

/-- Concrete raw data page at index 5, the final page of the chain. -/
def wRaw5 : RawPage :=
  { pageIndex := 5, tableType := .tracks, nextPage := 0,
    content := .data [{ slots := [[9]], mask := [1] }] }

/-- Concrete page source holding the three-page chain 0 → 2 → 5. -/
def wSource : PageSource := fun i =>
  if i = 0 then .ok wRaw0
  else if i = 2 then .ok wRaw2
  else if i = 5 then .ok wRaw5
  else .error .malformedPage

/-- Decoded form of `wRaw0`. -/
def wPage0 : Page :=
  { pageIndex := 0, tableType := .tracks, nextPage := 2,
    content := .data [{ mask := [1], entries := [some (.tracks [7]), none] }] }

/-- Decoded form of `wRaw2`. -/
def wPage2 : Page :=
  { pageIndex := 2, tableType := .tracks, nextPage := 5,
    content := .other 3 }

/-- Decoded form of `wRaw5`. -/
def wPage5 : Page :=
  { pageIndex := 5, tableType := .tracks, nextPage := 0,
    content := .data [{ mask := [1], entries := [some (.tracks [9])] }] }

/-- Concrete header: one tracks table whose chain runs from page 0 to
page 5. -/
def wHeader : Header :=
  { pageSize := 4096, tables := [{ tag := .tracks, firstPage := 0, lastPage := 5 }] }

/-- Concrete well-formed file over `wSource`. -/
def wFile : PdbFile :=
  { header := .ok wHeader, page := wSource }

/-- Concrete header whose second table's chain starts at an unreadable
page index. -/
def wBadHeader : Header :=
  { pageSize := 4096,
    tables :=
      [{ tag := .tracks, firstPage := 0, lastPage := 5 },
       { tag := .artists, firstPage := 9, lastPage := 9 }] }

/-- Concrete file whose second table aborts the read with a page error. -/
def wBadFile : PdbFile :=
  { header := .ok wBadHeader, page := wSource }

/-- Concrete raw page of an unknown table type, a chain of one page. -/
def wRawUnknown : RawPage :=
  { pageIndex := 7, tableType := .unknown 42, nextPage := 0,
    content := .data [{ slots := [[], [3, 4]], mask := [3] }] }

/-- Concrete page source holding the known chain and the unknown-table
page at index 7. -/
def wMixedSource : PageSource := fun i =>
  if i = 7 then .ok wRawUnknown else wSource i

/-- Concrete file with a known tracks table and an unknown-tagged table. -/
def wMixedFile : PdbFile :=
  { header :=
      .ok
        { pageSize := 4096,
          tables :=
            [{ tag := .tracks, firstPage := 0, lastPage := 5 },
             { tag := .unknown 42, firstPage := 7, lastPage := 7 }] },
    page := wMixedSource }

/-- Concrete row collection used by the iterator witnesses. -/
def wRows : PdbRows :=
  { rows := [.tracks [7], .tracks [9], .artists [1]] }

/-- Concrete file whose header read fails. -/
def wHdrErrFile : PdbFile :=
  { header := .error .malformedHeader, page := wSource }

/-- Decoded form of `wRawUnknown`: both rows retained as raw-byte
fallbacks. -/
def wPageU : Page :=
  { pageIndex := 7, tableType := .unknown 42, nextPage := 0,
    content :=
      .data
        [{ mask := [3],
           entries :=
             [some (.unknownRow 42 []), some (.unknownRow 42 [3, 4])] }] }

theorem mapE_cons (f : α → Except PdbError β) (a : α) (l : List α) :
    mapE f (a :: l)
      = (match f a with
        | .error e => .error e
        | .ok b =>
          match mapE f l with
          | .error e => .error e
          | .ok bs => .ok (b :: bs)) := rfl

theorem mapE_congr {f g : α → Except PdbError β} :
    ∀ {l : List α}, (∀ a ∈ l, f a = g a) → mapE f l = mapE g l := by
  intro l
  induction l with
  | nil => intro _; rfl
  | cons a as ih =>
    intro h
    simp only [mapE]
    rw [h a (by simp), ih (fun b hb => h b (by simp [hb]))]

theorem mapE_ok_map {f : α → Except PdbError β} {h : α → β} :
    ∀ {l : List α}, (∀ a ∈ l, f a = .ok (h a)) → mapE f l = .ok (l.map h) := by
  intro l
  induction l with
  | nil => intro _; rfl
  | cons a as ih =>
    intro hl
    simp only [mapE, List.map]
    rw [hl a (by simp), ih (fun b hb => hl b (by simp [hb]))]

theorem mapE_ok_length {f : α → Except PdbError β} :
    ∀ {l : List α} {bs : List β}, mapE f l = .ok bs → bs.length = l.length := by
  intro l
  induction l with
  | nil =>
    intro bs h
    simp only [mapE] at h
    cases h
    rfl
  | cons a as ih =>
    intro bs h
    simp only [mapE] at h
    cases hfa : f a with
    | error e => rw [hfa] at h; cases h
    | ok b =>
      rw [hfa] at h
      cases hrec : mapE f as with
      | error e => rw [hrec] at h; cases h
      | ok cs =>
        rw [hrec] at h
        cases h
        simp [ih hrec]

theorem mapE_forall₂ {f : α → Except PdbError β} :
    ∀ {l : List α} {bs : List β}, mapE f l = .ok bs →
      List.Forall₂ (fun a b => f a = .ok b) l bs := by
  intro l
  induction l with
  | nil =>
    intro bs h
    simp only [mapE] at h
    cases h
    exact List.Forall₂.nil
  | cons a as ih =>
    intro bs h
    simp only [mapE] at h
    cases hfa : f a with
    | error e => rw [hfa] at h; cases h
    | ok b =>
      rw [hfa] at h
      cases hrec : mapE f as with
      | error e => rw [hrec] at h; cases h
      | ok cs =>
        rw [hrec] at h
        cases h
        exact List.Forall₂.cons hfa (ih hrec)

theorem mapE_present (tt : TableType) (slots : List (List Nat))
    (mask : List Nat) :
    ∀ l : List Nat,
      exceptMap (fun es => es.filterMap id)
        (mapE
          (fun i =>
            if bitSet mask i then
              match decodeRow tt (slots.getD i []) with
              | .error e => .error e
              | .ok r => .ok (some r)
            else .ok none)
          l)
      = mapE (fun i => decodeRow tt (slots.getD i []))
          (l.filter (fun i => bitSet mask i)) := by
  intro l
  induction l with
  | nil => rfl
  | cons i l ih =>
    by_cases hb : bitSet mask i
    · simp only [mapE, List.filter, hb, if_pos, reduceIte]
      cases hd : decodeRow tt (slots.getD i []) with
      | error e => simp [exceptMap]
      | ok r =>
        cases hrec :
            mapE
              (fun j =>
                if bitSet mask j then
                  match decodeRow tt (slots.getD j []) with
                  | .error e => .error e
                  | .ok r => .ok (some r)
                else .ok none)
              l with
        | error e =>
          rw [hrec] at ih
          simp [exceptMap] at ih
          simp [exceptMap, ← ih]
        | ok es =>
          rw [hrec] at ih
          simp [exceptMap] at ih
          simp [exceptMap, ← ih]
    · simp only [mapE, List.filter, hb, reduceIte]
      cases hrec :
          mapE
            (fun j =>
              if bitSet mask j then
                match decodeRow tt (slots.getD j []) with
                | .error e => .error e
                | .ok r => .ok (some r)
              else .ok none)
            l with
      | error e =>
        rw [hrec] at ih
        simp [exceptMap] at ih
        simp [exceptMap, ← ih]
      | ok es =>
        rw [hrec] at ih
        simp [exceptMap] at ih
        simp [exceptMap, ← ih]

theorem readRowGroup_filter (tt : TableType) (raw : RawRowGroup) :
    exceptMap RowGroup.intoRows (readRowGroup tt raw)
      = mapE (fun i => decodeRow tt (raw.slots.getD i []))
          (presentIndices raw.mask raw.slots.length) := by
  have h := mapE_present tt raw.slots raw.mask (List.range raw.slots.length)
  unfold readRowGroup presentIndices
  rw [← h]
  cases hm :
      mapE
        (fun i =>
          if bitSet raw.mask i then
            match decodeRow tt (raw.slots.getD i []) with
            | .error e => .error e
            | .ok r => .ok (some r)
          else .ok none)
        (List.range raw.slots.length) with
  | error e => simp [exceptMap]
  | ok es => simp [exceptMap, RowGroup.intoRows]

theorem readRowGroup_stale_independent (tt : TableType)
    (raw raw2 : RawRowGroup) (hmask : raw2.mask = raw.mask)
    (hlen : raw2.slots.length = raw.slots.length)
    (hagree : ∀ i < raw.slots.length, bitSet raw.mask i = true →
      raw2.slots.getD i [] = raw.slots.getD i []) :
    readRowGroup tt raw2 = readRowGroup tt raw := by
  unfold readRowGroup
  rw [hmask, hlen]
  have hcong :
      mapE
        (fun i =>
          if bitSet raw.mask i then
            match decodeRow tt (raw2.slots.getD i []) with
            | .error e => .error e
            | .ok r => .ok (some r)
          else .ok none)
        (List.range raw.slots.length)
      = mapE
          (fun i =>
            if bitSet raw.mask i then
              match decodeRow tt (raw.slots.getD i []) with
              | .error e => .error e
              | .ok r => .ok (some r)
            else .ok none)
          (List.range raw.slots.length) := by
    apply mapE_congr
    intro i hi
    by_cases hb : bitSet raw.mask i
    · rw [hagree i (List.mem_range.mp hi) hb]
    · simp [hb]
  rw [hcong]

theorem readRowGroup_all_clear (tt : TableType) (raw : RawRowGroup)
    (h : ∀ i < raw.slots.length, bitSet raw.mask i = false) :
    exceptMap RowGroup.intoRows (readRowGroup tt raw) = .ok [] := by
  rw [readRowGroup_filter]
  have hnil : presentIndices raw.mask raw.slots.length = [] := by
    unfold presentIndices
    simp only [List.filter_eq_nil_iff]
    intro i hi
    simp [h i (List.mem_range.mp hi)]
  rw [hnil]
  rfl

theorem parseRowGroup_shape (slotCount slotSize : Nat) (bytes : List Nat)
    (raw : RawRowGroup) (h : parseRowGroup slotCount slotSize bytes = some raw) :
    raw.mask.length = (slotCount + 7) / 8 ∧ raw.slots.length = slotCount := by
  simp only [parseRowGroup] at h
  split at h
  · rename_i hc
    injection h with h2
    subst h2
    constructor
    · simp only [List.length_drop, hc]
      omega
    · simp
  · cases h

/-- C1: for every row group, extraction yields, in ascending slot order,
exactly the rows whose presence bit is set (bit `i`, least-significant-bit
first within each mask byte, governs slot `i`; the mask spans
`ceil(slotCount / 8)` bytes); slots with a clear bit are skipped without any
attempt to decode their payload (the outcome is independent of their bytes),
and an all-clear mask yields zero rows. -/
theorem C1_present_rows (tt : TableType) (raw : RawRowGroup) :
    (exceptMap RowGroup.intoRows (readRowGroup tt raw)
        = mapE (fun i => decodeRow tt (raw.slots.getD i []))
            (presentIndices raw.mask raw.slots.length))
      ∧ (∀ raw2 : RawRowGroup, raw2.mask = raw.mask →
          raw2.slots.length = raw.slots.length →
          (∀ i < raw.slots.length, bitSet raw.mask i = true →
            raw2.slots.getD i [] = raw.slots.getD i []) →
          readRowGroup tt raw2 = readRowGroup tt raw)
      ∧ ((∀ i < raw.slots.length, bitSet raw.mask i = false) →
          exceptMap RowGroup.intoRows (readRowGroup tt raw) = .ok [])
      ∧ (∀ slotCount slotSize bytes,
          parseRowGroup slotCount slotSize bytes = some raw →
          raw.mask.length = (slotCount + 7) / 8 ∧
            raw.slots.length = slotCount) :=
  ⟨readRowGroup_filter tt raw,
   fun raw2 h1 h2 h3 => readRowGroup_stale_independent tt raw raw2 h1 h2 h3,
   fun h => readRowGroup_all_clear tt raw h,
   fun c s b h => parseRowGroup_shape c s b raw h⟩

/-- Witness for C1 at a concrete two-slot row group whose mask sets only
slot 0: the stale slot's bytes do not affect the result, an all-clear group
yields no rows, and a parsed group has the declared mask length. -/
theorem C1_present_rows_witness :
    (exceptMap RowGroup.intoRows
        (readRowGroup .tracks { slots := [[7], [8]], mask := [1] })
        = mapE
            (fun i =>
              decodeRow .tracks
                (({ slots := [[7], [8]], mask := [1] } : RawRowGroup).slots.getD
                  i []))
            (presentIndices [1] 2))
      ∧ readRowGroup .tracks { slots := [[7], [99]], mask := [1] }
          = readRowGroup .tracks { slots := [[7], [8]], mask := [1] }
      ∧ exceptMap RowGroup.intoRows
          (readRowGroup .tracks { slots := [[5], [6]], mask := [0] }) = .ok []
      ∧ ({ slots := [[7], [8]], mask := [9] } : RawRowGroup).mask.length
            = (2 + 7) / 8
        ∧ ({ slots := [[7], [8]], mask := [9] } : RawRowGroup).slots.length
            = 2 :=
  ⟨(C1_present_rows .tracks { slots := [[7], [8]], mask := [1] }).1,
   (C1_present_rows .tracks { slots := [[7], [8]], mask := [1] }).2.1
     { slots := [[7], [99]], mask := [1] } (by decide) (by decide) (by decide),
   (C1_present_rows .tracks { slots := [[5], [6]], mask := [0] }).2.2.1
     (by decide),
   (C1_present_rows .tracks { slots := [[7], [8]], mask := [9] }).2.2.2
     2 1 [7, 8, 9] (by decide)⟩

theorem groupsLoop_eq :
    ∀ (rgs : List RowGroup) (rows : List Row),
      groupsLoop rgs rows = rows ++ (rgs.map RowGroup.intoRows).flatten := by
  intro rgs
  induction rgs with
  | nil => intro rows; simp [groupsLoop]
  | cons rg rest ih =>
    intro rows
    simp [groupsLoop, ih]

theorem pagesLoop_eq :
    ∀ (ps : List Page) (rows : List Row),
      pagesLoop ps rows = rows ++ (ps.map pageRows).flatten := by
  intro ps
  induction ps with
  | nil => intro rows; simp [pagesLoop]
  | cons p rest ih =>
    intro rows
    cases hc : p.content with
    | data rgs => simp [pagesLoop, hc, ih, groupsLoop_eq, pageRows]
    | other k => simp [pagesLoop, hc, ih, pageRows]

theorem tablesLoop_eq (src : PageSource) (typ : DatabaseType) (fuel : Nat) :
    ∀ (ts : List TableEntry) (rows : List Row),
      tablesLoop src typ fuel ts rows
        = (match mapE (tableRows src typ fuel) ts with
          | .error e => .error e
          | .ok ls => .ok (rows ++ ls.flatten)) := by
  intro ts
  induction ts with
  | nil => intro rows; simp [tablesLoop, mapE]
  | cons t rest ih =>
    intro rows
    simp only [tablesLoop, mapE, tableRows]
    cases hr : readPages src typ t.firstPage t.lastPage fuel with
    | error e => rfl
    | ok pages =>
      simp only [ih]
      cases hm : mapE (tableRows src typ fuel) rest with
      | error e => rfl
      | ok ls => simp [pagesLoop_eq, List.append_assoc]

theorem iter_eq_spec (f : Except PdbError PdbFile) (typ : DatabaseType)
    (fuel : Nat) : iter_pdb_rows f typ fuel = rowCollectionSpec f typ fuel := by
  unfold iter_pdb_rows rowCollectionSpec
  cases f with
  | error e => rfl
  | ok file =>
    dsimp only
    cases hh : file.header with
    | error e => rfl
    | ok header =>
      dsimp only
      rw [tablesLoop_eq]
      cases hm : mapE (tableRows file.page typ fuel) header.tables with
      | error e => rfl
      | ok ls => simp

/-- C3: the collection returned by the top-level read concatenates rows of
different tables in table-directory order, and within a table in page-chain
order and then row-group/slot order — i.e. `iter_pdb_rows` computes exactly
the nested-concatenation form `rowCollectionSpec`. -/
theorem C3_table_page_slot_order (f : Except PdbError PdbFile)
    (typ : DatabaseType) (fuel : Nat) :
    iter_pdb_rows f typ fuel = rowCollectionSpec f typ fuel :=
  iter_eq_spec f typ fuel

/-- C2: for a table whose chain reaches the declared last page, `read_pages`
terminates and yields a finite sequence: a witnessed chain of K page indices
with distinct pointers yields exactly K decoded pages, in pointer order
(K = 1 when the first page is itself the last page), for any fuel of at
least K steps. -/
theorem C2_read_pages_chain (file : PageSource) (typ : DatabaseType)
    (last : Nat) :
    ∀ (rest : List Nat) (first fuel : Nat),
      ChainOk file last (first :: rest) → (first :: rest).Nodup →
      (first :: rest).length ≤ fuel →
      ∃ pgs, readPages file typ first last fuel = .ok pgs ∧
        mapE (decodeAt file) (first :: rest) = .ok pgs ∧
        pgs.length = rest.length + 1 := by
  intro rest
  induction rest with
  | nil =>
    intro first fuel hchain hnd hfuel
    simp only [ChainOk] at hchain
    obtain ⟨raw, p, hf, hd, hidx⟩ := hchain
    cases fuel with
    | zero => simp at hfuel
    | succ f =>
      refine ⟨[p], ?_, ?_, rfl⟩
      · simp [readPages, readPagesAux, hf, hd, hidx]
      · simp [mapE, decodeAt, hf, hd]
  | cons j rest ih =>
    intro first fuel hchain hnd hfuel
    simp only [ChainOk] at hchain
    obtain ⟨raw, p, hf, hd, hne, hnext, hchain2⟩ := hchain
    cases fuel with
    | zero => simp at hfuel
    | succ f =>
      have hfuel2 : (j :: rest).length ≤ f := by
        simp only [List.length_cons] at hfuel ⊢
        omega
      have hnd2 : (j :: rest).Nodup := (List.nodup_cons.mp hnd).2
      obtain ⟨pgs, hrp, hmap, hlen⟩ := ih j f hchain2 hnd2 hfuel2
      have hrp2 : readPagesAux file last j f = .ok pgs := hrp
      refine ⟨p :: pgs, ?_, ?_, by simp [hlen]⟩
      · simp [readPages, readPagesAux, hf, hd, hne, hnext, hrp2]
      · rw [mapE_cons, hmap]
        simp [decodeAt, hf, hd]

/-- Witness for C2 at the concrete three-page chain 0 → 2 → 5 with three
units of fuel. -/
theorem C2_read_pages_chain_witness :
    ∃ pgs, readPages wSource .pdb 0 5 3 = .ok pgs ∧
      mapE (decodeAt wSource) [0, 2, 5] = .ok pgs ∧
      pgs.length = [2, 5].length + 1 :=
  C2_read_pages_chain wSource .pdb 5 [2, 5] 0 3
    (by
      simp only [ChainOk]
      exact ⟨wRaw0, wPage0, rfl, rfl, by decide, rfl,
        wRaw2, wPage2, rfl, rfl, by decide, rfl,
        wRaw5, wPage5, rfl, rfl, rfl⟩)
    (by decide) (by decide)

theorem tablesLoop_prefix_error (src : PageSource) (typ : DatabaseType)
    (fuel : Nat) :
    ∀ (ts1 : List TableEntry) (t : TableEntry) (ts2 : List TableEntry)
      (rows : List Row) (e : PdbError),
      (∀ t2 ∈ ts1, ∃ pgs,
        readPages src typ t2.firstPage t2.lastPage fuel = .ok pgs) →
      readPages src typ t.firstPage t.lastPage fuel = .error e →
      tablesLoop src typ fuel (ts1 ++ t :: ts2) rows = .error e := by
  intro ts1
  induction ts1 with
  | nil =>
    intro t ts2 rows e _ ht
    simp [tablesLoop, ht]
  | cons a as ih =>
    intro t ts2 rows e hok ht
    obtain ⟨pgs, hpgs⟩ := hok a (by simp)
    simp only [List.cons_append, tablesLoop, hpgs]
    exact ih t ts2 (pagesLoop pgs rows) e (fun b hb => hok b (by simp [hb])) ht

/-- C4: the top-level read returns either the complete row collection or the
first structural/IO error, never a partial result — an error opening the
file, reading the header, or walking any table's chain (after any number of
successful tables) is returned as that error. -/
theorem C4_first_error (typ : DatabaseType) (fuel : Nat) :
    (∀ e : PdbError, iter_pdb_rows (.error e) typ fuel = .error e)
      ∧ (∀ (file : PdbFile) (e : PdbError), file.header = .error e →
          iter_pdb_rows (.ok file) typ fuel = .error e)
      ∧ (∀ (file : PdbFile) (h : Header) (ts1 : List TableEntry)
          (t : TableEntry) (ts2 : List TableEntry) (e : PdbError),
          file.header = .ok h → h.tables = ts1 ++ t :: ts2 →
          (∀ t2 ∈ ts1, ∃ pgs,
            readPages file.page typ t2.firstPage t2.lastPage fuel = .ok pgs) →
          readPages file.page typ t.firstPage t.lastPage fuel = .error e →
          iter_pdb_rows (.ok file) typ fuel = .error e) := by
  refine ⟨fun e => rfl, ?_, ?_⟩
  · intro file e hh
    simp [iter_pdb_rows, hh]
  · intro file h ts1 t ts2 e hh htab hok ht
    have hloop :=
      tablesLoop_prefix_error file.page typ fuel ts1 t ts2 [] e hok ht
    simp [iter_pdb_rows, hh, htab, hloop]

/-- Witness for C4: a concrete Io failure at open, a concrete header
failure, and a concrete file whose second table's chain walk fails after a
successful first table. -/
theorem C4_first_error_witness :
    iter_pdb_rows (.error .io) .pdb 3 = .error .io
      ∧ iter_pdb_rows (.ok wHdrErrFile) .pdb 3 = .error .malformedHeader
      ∧ iter_pdb_rows (.ok wBadFile) .pdb 3 = .error .malformedPage :=
  ⟨(C4_first_error .pdb 3).1 .io,
   (C4_first_error .pdb 3).2.1 wHdrErrFile .malformedHeader rfl,
   (C4_first_error .pdb 3).2.2 wBadFile wBadHeader
     [{ tag := .tracks, firstPage := 0, lastPage := 5 }]
     { tag := .artists, firstPage := 9, lastPage := 9 } [] .malformedPage rfl
     rfl
     (by
       intro t2 ht2
       rw [List.mem_singleton] at ht2
       subst ht2
       exact ⟨[wPage0, wPage2, wPage5], rfl⟩)
     rfl⟩

theorem mapE_ok_mem {f : α → Except PdbError β} :
    ∀ {l : List α} {bs : List β}, mapE f l = .ok bs →
      ∀ b ∈ bs, ∃ a ∈ l, f a = .ok b := by
  intro l
  induction l with
  | nil =>
    intro bs h
    simp only [mapE] at h
    cases h
    intro b hb
    cases hb
  | cons a as ih =>
    intro bs h
    simp only [mapE] at h
    cases hfa : f a with
    | error e => rw [hfa] at h; cases h
    | ok b0 =>
      rw [hfa] at h
      cases hrec : mapE f as with
      | error e => rw [hrec] at h; cases h
      | ok cs =>
        rw [hrec] at h
        cases h
        intro b hb
        rcases List.mem_cons.mp hb with hb | hb
        · exact ⟨a, by simp, by rw [hfa, hb]⟩
        · obtain ⟨a2, ha2, hfa2⟩ := ih hrec b hb
          exact ⟨a2, by simp [ha2], hfa2⟩

theorem readRowGroup_shape (tt : TableType) (raw : RawRowGroup)
    (rg : RowGroup) (h : readRowGroup tt raw = .ok rg) :
    rg.mask = raw.mask ∧ rg.entries.length = raw.slots.length ∧
      rg.intoRows.length = maskCount rg.mask rg.entries.length := by
  have hf := readRowGroup_filter tt raw
  rw [h] at hf
  simp only [exceptMap] at hf
  have hlen1 : rg.intoRows.length
      = (presentIndices raw.mask raw.slots.length).length :=
    mapE_ok_length hf.symm
  unfold readRowGroup at h
  cases hm :
      mapE
        (fun i =>
          if bitSet raw.mask i then
            match decodeRow tt (raw.slots.getD i []) with
            | .error e => .error e
            | .ok r => .ok (some r)
          else .ok none)
        (List.range raw.slots.length) with
  | error e => rw [hm] at h; cases h
  | ok es =>
    rw [hm] at h
    injection h with h2
    subst h2
    have hes : es.length = raw.slots.length := by
      have := mapE_ok_length hm
      simpa using this
    refine ⟨rfl, hes, ?_⟩
    simp only [maskCount]
    simp only [hes]
    exact hlen1

theorem decodePage_bitCount (raw : RawPage) (p : Page)
    (h : decodePage raw = .ok p) :
    (pageRows p).length = pageBitCount p := by
  unfold decodePage at h
  cases hc : raw.content with
  | data rgs =>
    rw [hc] at h
    dsimp only at h
    cases hm : mapE (readRowGroup raw.tableType) rgs with
    | error e => rw [hm] at h; cases h
    | ok ds =>
      rw [hm] at h
      injection h with h2
      subst h2
      simp only [pageRows, pageBitCount]
      rw [List.length_flatten, List.map_map]
      congr 1
      apply List.map_congr_left
      intro rg hrg
      obtain ⟨raw2, _, hraw2⟩ := mapE_ok_mem hm rg hrg
      have := readRowGroup_shape raw.tableType raw2 rg hraw2
      simpa using this.2.2
  | other k =>
    rw [hc] at h
    dsimp only at h
    injection h with h2
    subst h2
    simp [pageRows, pageBitCount]

theorem readPagesAux_mem (file : PageSource) (last : Nat) :
    ∀ (fuel cur : Nat) (pgs : List Page),
      readPagesAux file last cur fuel = .ok pgs →
      ∀ p ∈ pgs, ∃ raw, decodePage raw = .ok p := by
  intro fuel
  induction fuel with
  | zero =>
    intro cur pgs h
    simp only [readPagesAux] at h
    cases h
  | succ f ih =>
    intro cur pgs h
    simp only [readPagesAux] at h
    cases hf : file cur with
    | error e => rw [hf] at h; cases h
    | ok raw =>
      rw [hf] at h
      dsimp only at h
      cases hd : decodePage raw with
      | error e => rw [hd] at h; cases h
      | ok p0 =>
        rw [hd] at h
        dsimp only at h
        by_cases hidx : raw.pageIndex = last
        · rw [if_pos hidx] at h
          cases h
          intro p hp
          rw [List.mem_singleton] at hp
          subst hp
          exact ⟨raw, hd⟩
        · rw [if_neg hidx] at h
          cases hrec : readPagesAux file last raw.nextPage f with
          | error e => rw [hrec] at h; cases h
          | ok ps =>
            rw [hrec] at h
            cases h
            intro p hp
            rcases List.mem_cons.mp hp with hp | hp
            · subst hp; exact ⟨raw, hd⟩
            · exact ih raw.nextPage ps hrec p hp

theorem mapE_tableRows (src : PageSource) (typ : DatabaseType) (fuel : Nat) :
    ∀ (ts : List TableEntry) (ls : List (List Row)),
      mapE (tableRows src typ fuel) ts = .ok ls →
      ∃ pgss,
        mapE (fun t => readPages src typ t.firstPage t.lastPage fuel) ts
            = .ok pgss ∧
          ls = pgss.map (fun ps => (ps.map pageRows).flatten) := by
  intro ts
  induction ts with
  | nil =>
    intro ls h
    simp only [mapE] at h
    cases h
    exact ⟨[], rfl, rfl⟩
  | cons t rest ih =>
    intro ls h
    simp only [mapE, tableRows] at h
    cases hr : readPages src typ t.firstPage t.lastPage fuel with
    | error e => rw [hr] at h; cases h
    | ok pages =>
      rw [hr] at h
      cases hm : mapE (tableRows src typ fuel) rest with
      | error e => rw [hm] at h; cases h
      | ok ls2 =>
        rw [hm] at h
        cases h
        obtain ⟨pgss, hps, hls⟩ := ih ls2 hm
        refine ⟨pages :: pgss, ?_, by simp [hls]⟩
        rw [mapE_cons, hr, hps]

theorem mapE_tableRows_ok (src : PageSource) (typ : DatabaseType)
    (fuel : Nat) :
    ∀ (ts : List TableEntry) (pgss : List (List Page)),
      mapE (fun t => readPages src typ t.firstPage t.lastPage fuel) ts
          = .ok pgss →
      mapE (tableRows src typ fuel) ts
        = .ok (pgss.map (fun ps => (ps.map pageRows).flatten)) := by
  intro ts
  induction ts with
  | nil =>
    intro pgss h
    simp only [mapE] at h
    cases h
    rfl
  | cons t rest ih =>
    intro pgss h
    simp only [mapE] at h
    cases hr : readPages src typ t.firstPage t.lastPage fuel with
    | error e => rw [hr] at h; cases h
    | ok pages =>
      rw [hr] at h
      cases hm :
          mapE (fun t => readPages src typ t.firstPage t.lastPage fuel)
            rest with
      | error e => rw [hm] at h; cases h
      | ok pgss2 =>
        rw [hm] at h
        cases h
        rw [mapE_cons]
        simp only [tableRows, hr, ih pgss2 hm]
        simp

/-- C5: for every successfully read file, the collection's length equals the
number of set presence bits summed over all row groups of every page reached
on every table's chain. -/
theorem C5_length_is_bit_sum (f : Except PdbError PdbFile)
    (typ : DatabaseType) (fuel : Nat) (rc : PdbRows)
    (h : iter_pdb_rows f typ fuel = .ok rc) :
    ∃ (file : PdbFile) (h0 : Header) (pgss : List (List Page)),
      f = .ok file ∧ file.header = .ok h0 ∧
        mapE (fun t => readPages file.page typ t.firstPage t.lastPage fuel)
            h0.tables = .ok pgss ∧
        rc.rows.length
          = (pgss.map (fun ps => (ps.map pageBitCount).sum)).sum := by
  rw [iter_eq_spec] at h
  unfold rowCollectionSpec at h
  cases hf : f with
  | error e => rw [hf] at h; cases h
  | ok file =>
    rw [hf] at h
    dsimp only at h
    cases hh : file.header with
    | error e => rw [hh] at h; cases h
    | ok h0 =>
      rw [hh] at h
      dsimp only at h
      cases hm : mapE (tableRows file.page typ fuel) h0.tables with
      | error e => rw [hm] at h; cases h
      | ok ls =>
        rw [hm] at h
        cases h
        obtain ⟨pgss, hps, hls⟩ := mapE_tableRows file.page typ fuel _ _ hm
        refine ⟨file, h0, pgss, rfl, hh, hps, ?_⟩
        subst hls
        simp only [List.length_flatten, List.map_map]
        congr 1
        apply List.map_congr_left
        intro ps hps2
        simp only [Function.comp]
        rw [List.length_flatten, List.map_map]
        congr 1
        apply List.map_congr_left
        intro p hp
        obtain ⟨t, _, hread⟩ := mapE_ok_mem hps ps hps2
        obtain ⟨raw, hraw⟩ :=
          readPagesAux_mem file.page t.lastPage fuel t.firstPage ps hread p hp
        exact decodePage_bitCount raw p hraw

/-- Witness for C5 at the concrete one-table file `wFile`: two present bits
over the chain, two rows. -/
theorem C5_length_is_bit_sum_witness :
    ∃ (file : PdbFile) (h0 : Header) (pgss : List (List Page)),
      (Except.ok wFile : Except PdbError PdbFile) = .ok file ∧
        file.header = .ok h0 ∧
        mapE (fun t => readPages file.page .pdb t.firstPage t.lastPage 3)
            h0.tables = .ok pgss ∧
        ({ rows := [Row.tracks [7], Row.tracks [9]] } : PdbRows).rows.length
          = (pgss.map (fun ps => (ps.map pageBitCount).sum)).sum :=
  C5_length_is_bit_sum (.ok wFile) .pdb 3
    { rows := [Row.tracks [7], Row.tracks [9]] } rfl

theorem readRowGroup_unknown (tag : Nat) (raw : RawRowGroup) :
    readRowGroup (.unknown tag) raw
      = .ok
          { mask := raw.mask,
            entries :=
              (List.range raw.slots.length).map
                (fun i =>
                  if bitSet raw.mask i then
                    some (Row.unknownRow tag (raw.slots.getD i []))
                  else none) } := by
  unfold readRowGroup
  have hmap :=
    @mapE_ok_map Nat (Option Row)
      (fun i =>
        if bitSet raw.mask i then
          match decodeRow (.unknown tag) (raw.slots.getD i []) with
          | .error e => .error e
          | .ok r => .ok (some r)
        else .ok none)
      (fun i =>
        if bitSet raw.mask i then
          some (Row.unknownRow tag (raw.slots.getD i []))
        else none)
      (List.range raw.slots.length)
      (by
        intro i _
        by_cases hb : bitSet raw.mask i
        · simp [hb, decodeRow]
        · simp [hb])
  rw [hmap]

theorem decodePage_unknown (raw : RawPage) (tag : Nat)
    (h : raw.tableType = .unknown tag) : ∃ p, decodePage raw = .ok p := by
  unfold decodePage
  cases hc : raw.content with
  | data rgs =>
    dsimp only
    have hmap :=
      @mapE_ok_map RawRowGroup RowGroup (readRowGroup raw.tableType)
        (fun raw2 =>
          { mask := raw2.mask,
            entries :=
              (List.range raw2.slots.length).map
                (fun i =>
                  if bitSet raw2.mask i then
                    some (Row.unknownRow tag (raw2.slots.getD i []))
                  else none) })
        rgs
        (by
          intro a _
          rw [h]
          exact readRowGroup_unknown tag a)
    rw [hmap]
    exact ⟨_, rfl⟩
  | other k =>
    dsimp only
    exact ⟨_, rfl⟩

theorem readPages_unknown_chain (file : PageSource) (typ : DatabaseType)
    (tag last : Nat) :
    ∀ (rest : List Nat) (first fuel : Nat),
      ChainRawOk file (.unknown tag) last (first :: rest) →
      (first :: rest).length ≤ fuel →
      ∃ pgs, readPages file typ first last fuel = .ok pgs := by
  intro rest
  induction rest with
  | nil =>
    intro first fuel hchain hfuel
    simp only [ChainRawOk] at hchain
    obtain ⟨raw, hf, htt, hidx⟩ := hchain
    cases fuel with
    | zero => simp at hfuel
    | succ f =>
      obtain ⟨p, hp⟩ := decodePage_unknown raw tag htt
      exact ⟨[p], by simp [readPages, readPagesAux, hf, hp, hidx]⟩
  | cons j rest ih =>
    intro first fuel hchain hfuel
    simp only [ChainRawOk] at hchain
    obtain ⟨raw, hf, htt, hne, hnext, hchain2⟩ := hchain
    cases fuel with
    | zero => simp at hfuel
    | succ f =>
      have hfuel2 : (j :: rest).length ≤ f := by
        simp only [List.length_cons] at hfuel ⊢
        omega
      obtain ⟨p, hp⟩ := decodePage_unknown raw tag htt
      obtain ⟨pgs, hrp⟩ := ih j f hchain2 hfuel2
      have hrp2 : readPagesAux file last j f = .ok pgs := hrp
      exact ⟨p :: pgs,
        by simp [readPages, readPagesAux, hf, hp, hne, hnext, hrp2]⟩

theorem iter_ok_of_tables_ok (typ : DatabaseType) (fuel : Nat)
    (file : PdbFile) (h0 : Header) (pgss : List (List Page))
    (hh : file.header = .ok h0)
    (hm : mapE (fun t => readPages file.page typ t.firstPage t.lastPage fuel)
        h0.tables = .ok pgss) :
    ∃ rc, iter_pdb_rows (.ok file) typ fuel = .ok rc := by
  have hmap := mapE_tableRows_ok file.page typ fuel h0.tables pgss hm
  refine ⟨{ rows :=
      (pgss.map (fun ps => (ps.map pageRows).flatten)).flatten }, ?_⟩
  rw [iter_eq_spec]
  unfold rowCollectionSpec
  dsimp only
  rw [hh]
  dsimp only
  rw [hmap]

/-- C6: a table directory entry with an unrecognized table-type tag does not
abort the read — its row groups always decode (every present row retained as
a table-tagged raw-byte fallback), its pages always decode, a readable chain
of unknown-tagged pages always walks to completion, and a file all of whose
chain walks succeed yields a full collection. -/
theorem C6_unknown_table_fallback :
    (∀ (tag : Nat) (raw : RawRowGroup),
        readRowGroup (.unknown tag) raw
          = .ok
              { mask := raw.mask,
                entries :=
                  (List.range raw.slots.length).map
                    (fun i =>
                      if bitSet raw.mask i then
                        some (Row.unknownRow tag (raw.slots.getD i []))
                      else none) })
      ∧ (∀ (raw : RawPage) (tag : Nat), raw.tableType = .unknown tag →
          ∃ p, decodePage raw = .ok p)
      ∧ (∀ (file : PageSource) (typ : DatabaseType) (tag last : Nat)
          (rest : List Nat) (first fuel : Nat),
          ChainRawOk file (.unknown tag) last (first :: rest) →
          (first :: rest).length ≤ fuel →
          ∃ pgs, readPages file typ first last fuel = .ok pgs)
      ∧ (∀ (typ : DatabaseType) (fuel : Nat) (file : PdbFile) (h0 : Header)
          (pgss : List (List Page)), file.header = .ok h0 →
          mapE
              (fun t => readPages file.page typ t.firstPage t.lastPage fuel)
              h0.tables = .ok pgss →
          ∃ rc, iter_pdb_rows (.ok file) typ fuel = .ok rc) :=
  ⟨readRowGroup_unknown,
   decodePage_unknown,
   readPages_unknown_chain,
   fun typ fuel file h0 pgss hh hm =>
     iter_ok_of_tables_ok typ fuel file h0 pgss hh hm⟩

/-- Witness for C6 at the concrete mixed file: the unknown-tagged table's
rows decode as fallbacks, its page decodes, its one-page chain walks, and
the whole mixed read succeeds. -/
theorem C6_unknown_table_fallback_witness :
    readRowGroup (.unknown 42) { slots := [[], [3, 4]], mask := [3] }
        = .ok
            { mask := [3],
              entries :=
                (List.range 2).map
                  (fun i =>
                    if bitSet [3] i then
                      some
                        (Row.unknownRow 42
                          (([[], [3, 4]] : List (List Nat)).getD i []))
                    else none) }
      ∧ (∃ p, decodePage wRawUnknown = .ok p)
      ∧ (∃ pgs, readPages wMixedSource .pdb 7 7 1 = .ok pgs)
      ∧ (∃ rc, iter_pdb_rows (.ok wMixedFile) .pdb 3 = .ok rc) :=
  ⟨C6_unknown_table_fallback.1 42 { slots := [[], [3, 4]], mask := [3] },
   C6_unknown_table_fallback.2.1 wRawUnknown 42 rfl,
   C6_unknown_table_fallback.2.2.1 wMixedSource .pdb 42 7 [] 7 1
     (by
       simp only [ChainRawOk]
       exact ⟨wRawUnknown, rfl, rfl, rfl⟩)
     (by decide),
   C6_unknown_table_fallback.2.2.2 .pdb 3 wMixedFile
     { pageSize := 4096,
       tables :=
         [{ tag := .tracks, firstPage := 0, lastPage := 5 },
          { tag := .unknown 42, firstPage := 7, lastPage := 7 }] }
     [[wPage0, wPage2, wPage5], [wPageU]] rfl rfl⟩

/-- C7: only pages of the Data content kind contribute rows — a page of any
other kind is decoded structurally (always successfully at the content
level) but contributes nothing to the row accumulation and has no rows. -/
theorem C7_non_data_pages_no_rows (idx : Nat) (tt : TableType)
    (next k : Nat) (ps : List Page) (rows : List Row) :
    pageRows
        { pageIndex := idx, tableType := tt, nextPage := next,
          content := .other k } = []
      ∧ pagesLoop
            ({ pageIndex := idx, tableType := tt, nextPage := next,
                content := .other k } :: ps) rows
          = pagesLoop ps rows
      ∧ decodePage
            { pageIndex := idx, tableType := tt, nextPage := next,
              content := RawPageContent.other k }
          = .ok
              { pageIndex := idx, tableType := tt, nextPage := next,
                content := .other k } :=
  ⟨rfl, rfl, rfl⟩

theorem drain_elems : ∀ (l : List Row), PdbRowIter.drain { elems := l } = l := by
  intro l
  induction l with
  | nil => simp [PdbRowIter.drain]
  | cons x xs ih => simp [PdbRowIter.drain, ih]

/-- C8: borrowed iteration and ownership-transferring consumption yield the
identical row sequence — fully draining `iter()` gives exactly
`into_rows()`, hence the same rows, length, and order. -/
theorem C8_iter_matches_into_rows (rc : PdbRows) :
    PdbRowIter.drain rc.iter = rc.into_rows := by
  unfold PdbRows.iter PdbRows.into_rows
  exact drain_elems rc.rows

theorem consumeFront_drop :
    ∀ (k : Nat) (l : List Row),
      PdbRowIter.consumeFront k { elems := l } = { elems := l.drop k } := by
  intro k
  induction k with
  | zero => intro l; rfl
  | succ k ih =>
    intro l
    cases l with
    | nil => simp [PdbRowIter.consumeFront, PdbRowIter.next]
    | cons x xs => simp [PdbRowIter.consumeFront, PdbRowIter.next, ih xs]

theorem altDrain_perm :
    ∀ (n : Nat) (l : List Row), l.length ≤ n → ∀ b,
      (PdbRowIter.altDrain { elems := l } b).Perm l := by
  intro n
  induction n with
  | zero =>
    intro l h b
    have hl : l = [] := List.eq_nil_of_length_eq_zero (Nat.le_zero.mp h)
    subst hl
    simp [PdbRowIter.altDrain]
  | succ n ih =>
    intro l h b
    cases l with
    | nil => simp [PdbRowIter.altDrain]
    | cons x xs =>
      cases b with
      | true =>
        simp only [PdbRowIter.altDrain]
        refine List.Perm.cons x (ih xs ?_ false)
        have hlen : (x :: xs).length = xs.length + 1 := List.length_cons x xs
        omega
      | false =>
        simp only [PdbRowIter.altDrain]
        have h1 : ((x :: xs).dropLast).length ≤ n := by
          simp only [List.length_dropLast, List.length_cons] at h ⊢
          omega
        have hp := ih ((x :: xs).dropLast) h1 true
        have h2 :
            ((x :: xs).getLast (List.cons_ne_nil x xs)
                :: PdbRowIter.altDrain { elems := (x :: xs).dropLast } true).Perm
              ((x :: xs).getLast (List.cons_ne_nil x xs)
                :: (x :: xs).dropLast) :=
          List.Perm.cons _ hp
        refine h2.trans ?_
        have h3 :
            ((x :: xs).dropLast
                ++ [(x :: xs).getLast (List.cons_ne_nil x xs)]).Perm
              ((x :: xs).getLast (List.cons_ne_nil x xs)
                :: (x :: xs).dropLast) :=
          List.perm_append_singleton _ _
        refine h3.symm.trans ?_
        rw [List.dropLast_append_getLast]

/-- C9: after consuming `k ≤ L` items from the front, the iterator reports
exactly `L - k` remaining; and alternate front/back consumption yields a
permutation of (the same multiset as) pure front consumption — no
duplicates, no omissions. -/
theorem C9_exact_size_double_ended (rc : PdbRows) :
    (∀ k, k ≤ rc.len →
        (PdbRowIter.consumeFront k rc.iter).len = rc.len - k)
      ∧ (PdbRowIter.altDrain rc.iter true).Perm (PdbRowIter.drain rc.iter) := by
  constructor
  · intro k _
    unfold PdbRows.iter PdbRows.len PdbRowIter.len
    rw [consumeFront_drop]
    simp
  · unfold PdbRows.iter
    rw [drain_elems]
    exact altDrain_perm rc.rows.length rc.rows (le_refl _) true

/-- Witness for C9 at the concrete three-row collection, consuming two items
from the front. -/
theorem C9_exact_size_double_ended_witness :
    (PdbRowIter.consumeFront 2 wRows.iter).len = wRows.len - 2
      ∧ (PdbRowIter.altDrain wRows.iter true).Perm
          (PdbRowIter.drain wRows.iter) :=
  ⟨(C9_exact_size_double_ended wRows).1 2 (by decide),
   (C9_exact_size_double_ended wRows).2⟩

/-- C10: `is_empty()` holds exactly when `len()` is zero, and a
default-constructed `PdbRows` has length zero, is empty, and its iterator
yields nothing. -/
theorem C10_is_empty_iff_len_zero (rc : PdbRows) :
    (rc.is_empty = true ↔ rc.len = 0)
      ∧ (default : PdbRows).len = 0
      ∧ (default : PdbRows).is_empty = true
      ∧ PdbRowIter.next (default : PdbRows).iter = none := by
  refine ⟨?_, rfl, rfl, rfl⟩
  rcases rc with ⟨rows⟩
  cases rows <;> simp [PdbRows.is_empty, PdbRows.len]

end Rekordcrate
